import Mathlib

/-!
Verification of the `dollars` crate (`src/lib.rs`): a fixed-point monetary
value type backed by a signed 64-bit count of cents, with arithmetic,
display formatting and a string parser.

The embedding models `i64` as `Int` with explicit range checks
(`i64Min`/`i64Max`) and explicit wraparound (`wrap64`) where the Rust code
relies on fixed-width semantics.  Division and remainder use `Int.tdiv` and
`Int.tmod`, which truncate toward zero exactly as Rust's `/` and `%` on
`i64` do.  The parser is modelled on `List Char`, mirroring the `Chars`
iterator of the source, and `Dollars.from_str` wraps it for `String`
inputs.
-/

/-- Lower bound of `i64`. -/
def i64Min : Int := -(2 ^ 63)

/-- Upper bound of `i64`. -/
def i64Max : Int := 2 ^ 63 - 1

/-- Whether an integer is representable as an `i64`. -/
def validI64 (x : Int) : Prop := i64Min ≤ x ∧ x ≤ i64Max

instance (x : Int) : Decidable (validI64 x) :=
  inferInstanceAs (Decidable (_ ∧ _))

/-- Two's-complement wraparound into the `i64` range, the behaviour of
Rust's release-mode fixed-width arithmetic. -/
def wrap64 (x : Int) : Int := (x + 2 ^ 63) % 2 ^ 64 - 2 ^ 63

/-- `i64::checked_add`: `some` of the sum when it is representable. -/
def checkedAdd (a b : Int) : Option Int :=
  if validI64 (a + b) then some (a + b) else none

/-- `i64::checked_mul`: `some` of the product when it is representable. -/
def checkedMul (a b : Int) : Option Int :=
  if validI64 (a * b) then some (a * b) else none

/-- The `Dollars` struct: a dollar value backed by a single integer value
in cents (`cent_value: i64`). -/
structure Dollars where
  cent_value : Int
deriving DecidableEq, Repr

namespace Dollars

/-- `Dollars::dollars`: `(self.cent_value / 100).abs()`. -/
def dollars (d : Dollars) : Int := |Int.tdiv d.cent_value 100|

/-- `Dollars::cents`: `(self.cent_value % 100).abs()`. -/
def cents (d : Dollars) : Int := |Int.tmod d.cent_value 100|

/-- `Dollars::in_cents`: the raw signed cent total. -/
def in_cents (d : Dollars) : Int := d.cent_value

/-- `Dollars::is_positive`: `self.in_cents() > 0`. -/
def is_positive (d : Dollars) : Bool := d.in_cents > 0

/-- `From<i64> for Dollars`. -/
def fromInt (cent_value : Int) : Dollars := ⟨cent_value⟩

/-- `Add for Dollars`: plain `+` on the raw cent totals, wrapping per
fixed-width `i64` semantics. -/
def add (a b : Dollars) : Dollars := fromInt (wrap64 (a.in_cents + b.in_cents))

/-- `Sub for Dollars`: plain `-` on the raw cent totals, wrapping per
fixed-width `i64` semantics. -/
def sub (a b : Dollars) : Dollars := fromInt (wrap64 (a.in_cents - b.in_cents))

/-- `Neg for Dollars`: negation of the raw cent total, wrapping per
fixed-width `i64` semantics. -/
def neg (a : Dollars) : Dollars := ⟨wrap64 (-a.cent_value)⟩

end Dollars

/-- Rust's `{:02}` format specifier applied to a non-negative value:
zero-pad the decimal rendering to at least two characters. -/
def pad2 (n : Nat) : String := if n < 10 then "0" ++ toString n else toString n

/-- `Display for Dollars`: `"{}${}.{:02}"` with a `-` sign exactly when the
raw cent total is negative, then the dollar magnitude, `.`, and the cents
magnitude zero-padded to two digits.  `dollars()` and `cents()` are
non-negative, so rendering them with `{}` prints `natAbs` in decimal. -/
def Dollars.display (d : Dollars) : String :=
  (if d.in_cents < 0 then "-" else "") ++ "$" ++ toString d.dollars.natAbs
    ++ "." ++ pad2 d.cents.natAbs

/-- The internal parse-error taxonomy `ParseErrorKind`. -/
inductive ParseErrorKind where
  | InvalidDigit (c : Char)
  | Overflow
  | BadCentsLength
  | ExtraDecimalPoint
  | NonAscii
deriving DecidableEq, Repr

/-- The opaque `ParseError` wrapper around `ParseErrorKind`. -/
structure ParseError where
  kind : ParseErrorKind
deriving DecidableEq, Repr

/-- `char::to_digit(10)`: the digit value of `c` when `c` is `0`-`9`
(code points 48-57). -/
def toDigit10 (c : Char) : Option Nat :=
  if 48 ≤ c.toNat ∧ c.toNat ≤ 57 then some (c.toNat - 48) else none

/-- A character is ASCII when its code point is below 128; `str::is_ascii`
holds when every character is. -/
def isAsciiChar (c : Char) : Bool := c.toNat < 128

/-- The optional leading sign (step 2 of the parse): consume a leading `-`
for sign `-1`, or a leading `+` for sign `1`; sign defaults to `1`. -/
def stripSign : List Char → Int × List Char
  | [] => (1, [])
  | c :: rest =>
    if c = '-' then (-1, rest)
    else if c = '+' then (1, rest)
    else (1, c :: rest)

/-- The optional `$` (step 3 of the parse): consume a leading `$`. -/
def stripDollar : List Char → List Char
  | [] => []
  | c :: rest => if c = '$' then rest else c :: rest

/-- `chars.by_ref().take_while(|&c| c != '.')`: the run of characters
before the first `.`, paired with the characters after it.  The `.`
itself is consumed by `take_while` and appears in neither part. -/
def splitAtDot : List Char → List Char × List Char
  | [] => ([], [])
  | c :: rest =>
    if c = '.' then ([], rest)
    else
      let (run, r) := splitAtDot rest
      (c :: run, r)

/-- The `try_fold` over the dollar-digit run: each character must be a
decimal digit (`InvalidDigit` otherwise) and is added — `acc + d`, not
`acc * 10 + d` — into the accumulator with `checked_add` (`Overflow` on
failure). -/
def foldDigits (acc : Int) : List Char → Except ParseErrorKind Int
  | [] => .ok acc
  | c :: rest =>
    match toDigit10 c with
    | none => .error (.InvalidDigit c)
    | some d =>
      match checkedAdd acc (d : Int) with
      | none => .error .Overflow
      | some acc2 => foldDigits acc2 rest

/-- The cents step (step 5 of the parse), matching on
`(chars.next(), chars.next())` after the digit run.  Note the source's
second `ok_or` names `c1`, not `c2`. -/
def parseCents : List Char → Except ParseErrorKind Int
  | [] => .ok 0
  | [c1] =>
    if c1 = '.' then .error .ExtraDecimalPoint else .error .BadCentsLength
  | c1 :: c2 :: _ =>
    if c1 = '.' ∨ c2 = '.' then .error .ExtraDecimalPoint
    else
      match toDigit10 c1 with
      | none => .error (.InvalidDigit c1)
      | some d1 =>
        match toDigit10 c2 with
        | none => .error (.InvalidDigit c1)
        | some d2 => .ok ((d1 : Int) * 10 + (d2 : Int))

/-- Step 6 of the parse: `dollars.checked_mul(100)`, then
`.checked_add(cents)`, then `.checked_mul(sign)`; any `None` becomes
`Overflow`. -/
def composeTotal (dollars cents sign : Int) : Except ParseErrorKind Dollars :=
  match checkedMul dollars 100 with
  | none => .error .Overflow
  | some d =>
    match checkedAdd d cents with
    | none => .error .Overflow
    | some d2 =>
      match checkedMul d2 sign with
      | none => .error .Overflow
      | some v => .ok (Dollars.fromInt v)

/-- Steps 2-6 of `Dollars::from_str`, after the ASCII check: strip the
optional sign and `$`, fold the dollar-digit run, parse the cents window,
and compose the signed total. -/
def parseSigned (s : List Char) : Except ParseErrorKind Dollars :=
  let (sign, s1) := stripSign s
  let s2 := stripDollar s1
  let (run, rest) := splitAtDot s2
  match foldDigits 0 run with
  | .error e => .error e
  | .ok dollars =>
    match parseCents rest with
    | .error e => .error e
    | .ok cents => composeTotal dollars cents sign

/-- `Dollars::from_str` on the character sequence of the input. -/
def fromChars (s : List Char) : Except ParseError Dollars :=
  if s.all isAsciiChar then
    match parseSigned s with
    | .error e => .error ⟨e⟩
    | .ok v => .ok v
  else .error ⟨.NonAscii⟩

/-- `Dollars::from_str`. -/
def Dollars.from_str (s : String) : Except ParseError Dollars :=
  fromChars s.data

instance {e a : Type} [DecidableEq e] [DecidableEq a] : DecidableEq (Except e a) := fun x y =>
  match x, y with
  | .ok u, .ok v =>
    if h : u = v then .isTrue (by rw [h]) else .isFalse (fun he => by cases he; exact h rfl)
  | .error u, .error v =>
    if h : u = v then .isTrue (by rw [h]) else .isFalse (fun he => by cases he; exact h rfl)
  | .ok _, .error _ => .isFalse (fun he => by cases he)
  | .error _, .ok _ => .isFalse (fun he => by cases he)

/-- C1 counterexample: parsing `"$12.34"` does not return the raw cent
total 1234, because the dollar digits `1` and `2` are accumulated by plain
addition. -/
theorem c1_counterexample : Dollars.from_str "$12.34" ≠ .ok ⟨1234⟩ := by decide

/-- C1 (amended): parsing `"$12.34"` returns the raw cent total 334
(the dollar digits are summed, `1 + 2 = 3`, then `3 * 100 + 34`);
parsing `"-$0.01"` returns raw cent total `-1`; parsing `"+5"` returns
raw cent total 500. -/
theorem c1_parse_examples :
    Dollars.from_str "$12.34" = .ok ⟨334⟩ ∧
    Dollars.from_str "-$0.01" = .ok ⟨-1⟩ ∧
    Dollars.from_str "+5" = .ok ⟨500⟩ :=
  ⟨rfl, rfl, rfl⟩

/-- C4: at the failing input `"1.2x"` — after the dollar-digit run there
are exactly two more characters `2` and `x`, neither a dot, the first a
decimal digit and the second not — the parser reports `InvalidDigit('2')`,
carrying the FIRST cents character rather than the offending second one:
the second `ok_or` in the source reuses `c1` instead of `c2`. -/
theorem c4_invalid_cents_digit :
    Dollars.from_str "1.2x" = .error ⟨.InvalidDigit '2'⟩ ∧
    Dollars.from_str "1.2x" ≠ .error ⟨.InvalidDigit 'x'⟩ := by
  exact ⟨rfl, by decide⟩

/-- C5: `"12.3"` fails with `BadCentsLength`, `"1.2.3"` with
`ExtraDecimalPoint`, `"1x"` with `InvalidDigit('x')`, and `"café"` with
`NonAscii`; each is an error of exactly that kind and no Money Value is
produced. -/
theorem c5_error_examples :
    Dollars.from_str "12.3" = .error ⟨.BadCentsLength⟩ ∧
    Dollars.from_str "1.2.3" = .error ⟨.ExtraDecimalPoint⟩ ∧
    Dollars.from_str "1x" = .error ⟨.InvalidDigit 'x'⟩ ∧
    Dollars.from_str "café" = .error ⟨.NonAscii⟩ :=
  ⟨rfl, rfl, rfl, rfl⟩

/-- C7: for every raw cent total `v`, `dollars()` is the absolute value of
`v / 100` with division truncating toward zero, `cents()` is the absolute
value of `v % 100`, `in_cents()` is `v` itself, and `is_positive()` holds
exactly when `v > 0`; in particular for `v = -105`, `dollars() = 1` and
`cents() = 5`. -/
theorem c7_accessors (v : Int) :
    Dollars.dollars ⟨v⟩ = |Int.tdiv v 100| ∧
    Dollars.cents ⟨v⟩ = |Int.tmod v 100| ∧
    Dollars.in_cents ⟨v⟩ = v ∧
    (Dollars.is_positive ⟨v⟩ = true ↔ 0 < v) ∧
    Dollars.dollars ⟨-105⟩ = 1 ∧ Dollars.cents ⟨-105⟩ = 5 ∧
    Dollars.is_positive ⟨0⟩ = false := by
  refine ⟨rfl, rfl, rfl, ?_, by decide, by decide, by decide⟩
  simp [Dollars.is_positive, Dollars.in_cents]

/-- C10: each of the six digit-free inputs `""`, `"-"`, `"+"`, `"$"`,
`"-$"`, `"+$"` parses successfully to the zero Money Value: the empty
digit run folds to 0 and the empty cents tail contributes 0. -/
theorem c10_no_digits_zero :
    Dollars.from_str "" = .ok ⟨0⟩ ∧
    Dollars.from_str "-" = .ok ⟨0⟩ ∧
    Dollars.from_str "+" = .ok ⟨0⟩ ∧
    Dollars.from_str "$" = .ok ⟨0⟩ ∧
    Dollars.from_str "-$" = .ok ⟨0⟩ ∧
    Dollars.from_str "+$" = .ok ⟨0⟩ :=
  ⟨rfl, rfl, rfl, rfl, rfl, rfl⟩

/-- C9: for all raw cent totals `a`, `b` representable in `i64` such that
the intermediate sum `a + b` does not overflow, `Money(a) + Money(b) -
Money(b) = Money(a)`; and for every representable `a` — including
`i64::MIN` — double negation under the wraparound semantics of the host
integer type returns `Money(a)`. -/
theorem c9_arithmetic :
    (∀ a b : Int, validI64 a → validI64 b → validI64 (a + b) →
      Dollars.sub (Dollars.add ⟨a⟩ ⟨b⟩) ⟨b⟩ = ⟨a⟩) ∧
    (∀ a : Int, validI64 a → Dollars.neg (Dollars.neg ⟨a⟩) = ⟨a⟩) := by
  constructor
  · intro a b ha hb hab
    simp only [Dollars.sub, Dollars.add, Dollars.fromInt, Dollars.in_cents,
      Dollars.mk.injEq]
    simp only [validI64, i64Min, i64Max, wrap64] at *
    omega
  · intro a ha
    simp only [Dollars.neg, Dollars.mk.injEq]
    simp only [validI64, i64Min, i64Max, wrap64] at *
    omega

/-- C9 witness: the add-sub cancellation at `a = 5`, `b = 7`, and double
negation at `a = i64::MIN`. -/
theorem c9_arithmetic_witness :
    Dollars.sub (Dollars.add ⟨5⟩ ⟨7⟩) ⟨7⟩ = ⟨5⟩ ∧
    Dollars.neg (Dollars.neg ⟨i64Min⟩) = ⟨i64Min⟩ :=
  ⟨c9_arithmetic.1 5 7 (by decide) (by decide) (by decide),
   c9_arithmetic.2 i64Min (by decide)⟩

theorem tmod_neg_left (a : Int) : (-a).tmod 100 = -(a.tmod 100) := by
  simp [Int.tmod_def, Int.neg_tdiv, Int.mul_neg]; ring

theorem abs_tmod_lt_100 (v : Int) : |Int.tmod v 100| < 100 := by
  rcases le_or_lt 0 v with hv | hv
  · have h1 := Int.tmod_nonneg (a := v) 100 hv
    have h2 := Int.tmod_lt_of_pos v (show (0 : Int) < 100 by norm_num)
    rw [abs_of_nonneg h1]; exact h2
  · have h0 : (0 : Int) ≤ -v := by omega
    have h1 := Int.tmod_nonneg (a := -v) 100 h0
    have h2 := Int.tmod_lt_of_pos (-v) (show (0 : Int) < 100 by norm_num)
    have h3 : Int.tmod v 100 = -(Int.tmod (-v) 100) := by
      rw [← tmod_neg_left]; simp
    rw [h3, abs_neg, abs_of_nonneg h1]; exact h2

theorem pad2_length_eq_two : ∀ n : Nat, n < 100 → (pad2 n).length = 2 := by decide

theorem cents_natAbs_lt_100 (v : Int) : (Dollars.cents ⟨v⟩).natAbs < 100 := by
  have h := abs_tmod_lt_100 v
  have h2 : Dollars.cents ⟨v⟩ = |Int.tmod v 100| := rfl
  rw [h2]
  have h3 : (0 : Int) ≤ |Int.tmod v 100| := abs_nonneg _
  omega

theorem c6_display_format (v : Int) :
    Dollars.display ⟨v⟩ =
      (if v < 0 then "-" else "") ++ "$" ++ Nat.repr (Dollars.dollars ⟨v⟩).natAbs
        ++ "." ++ pad2 (Dollars.cents ⟨v⟩).natAbs ∧
    (pad2 (Dollars.cents ⟨v⟩).natAbs).length = 2 ∧
    Dollars.display ⟨-105⟩ = "-$1.05" ∧
    Dollars.display ⟨0⟩ = "$0.00" :=
  ⟨rfl, pad2_length_eq_two _ (cents_natAbs_lt_100 v), rfl, rfl⟩

/-- Whether a character is a decimal digit `0`-`9`. -/
def isDigitChar (c : Char) : Bool := decide (48 ≤ c.toNat ∧ c.toNat ≤ 57)

/-- The numeric value of a decimal digit character. -/
def digitVal (c : Char) : Int := ((c.toNat - 48 : Nat) : Int)

/-- The plain (unweighted) sum of the digit values of a character run. -/
def digitSum (l : List Char) : Int := (l.map digitVal).sum

theorem digitVal_nonneg (c : Char) : 0 ≤ digitVal c := Int.natCast_nonneg _

theorem digitSum_nil : digitSum [] = 0 := rfl

theorem digitSum_cons (c : Char) (l : List Char) :
    digitSum (c :: l) = digitVal c + digitSum l := by
  simp [digitSum]

theorem digitSum_nonneg (l : List Char) : 0 ≤ digitSum l := by
  induction l with
  | nil => simp [digitSum]
  | cons c l ih =>
    rw [digitSum_cons]
    have := digitVal_nonneg c
    omega

theorem toDigit10_of_digit (c : Char) (h : isDigitChar c = true) :
    toDigit10 c = some (c.toNat - 48) := by
  rw [toDigit10, if_pos (of_decide_eq_true h)]

theorem toDigit10_of_not_digit (c : Char) (h : isDigitChar c = false) :
    toDigit10 c = none := by
  rw [toDigit10, if_neg (of_decide_eq_false h)]

theorem i64Min_nonpos : i64Min ≤ 0 := by decide

theorem foldDigits_digits (l : List Char) : ∀ acc : Int, 0 ≤ acc →
    (∀ c ∈ l, isDigitChar c) → acc + digitSum l ≤ i64Max →
    foldDigits acc l = .ok (acc + digitSum l) := by
  induction l with
  | nil => intro acc _ _ _; simp [foldDigits, digitSum_nil]
  | cons c l ih =>
    intro acc h0 hd hb
    have hc : isDigitChar c = true := hd c (by simp)
    have hsum : 0 ≤ digitSum l := digitSum_nonneg l
    have hvc : 0 ≤ digitVal c := digitVal_nonneg c
    rw [digitSum_cons] at hb
    have hmin := i64Min_nonpos
    have hadd : checkedAdd acc ((c.toNat - 48 : Nat) : Int) = some (acc + digitVal c) := by
      rw [checkedAdd, if_pos]
      · rfl
      · unfold digitVal at *
        constructor <;> omega
    simp only [foldDigits, toDigit10_of_digit c hc, hadd]
    rw [ih (acc + digitVal c) (by omega) (fun x hx => hd x (by simp [hx])) (by omega)]
    congr 1
    rw [digitSum_cons]
    ring

theorem foldDigits_invalid (ds : List Char) : ∀ (acc : Int) (c : Char) (rest : List Char),
    (∀ x ∈ ds, isDigitChar x) → isDigitChar c = false →
    0 ≤ acc → acc + digitSum ds ≤ i64Max →
    foldDigits acc (ds ++ c :: rest) = .error (.InvalidDigit c) := by
  induction ds with
  | nil =>
    intro acc c rest _ hc _ _
    rw [List.nil_append, foldDigits, toDigit10_of_not_digit c hc]
  | cons d ds ih =>
    intro acc c rest hd hc h0 hb
    have hdd : isDigitChar d = true := hd d (by simp)
    have hsum : 0 ≤ digitSum ds := digitSum_nonneg ds
    have hvd : 0 ≤ digitVal d := digitVal_nonneg d
    rw [digitSum_cons] at hb
    have hmin := i64Min_nonpos
    have hadd : checkedAdd acc ((d.toNat - 48 : Nat) : Int) = some (acc + digitVal d) := by
      rw [checkedAdd, if_pos]
      · rfl
      · unfold digitVal at *
        constructor <;> omega
    rw [List.cons_append]
    simp only [foldDigits, toDigit10_of_digit d hdd, hadd]
    exact ih (acc + digitVal d) c rest (fun x hx => hd x (by simp [hx])) hc (by omega) (by omega)

theorem foldDigits_overflow (acc : Int) (c : Char) (rest : List Char)
    (hc : isDigitChar c = true) (hb : i64Max < acc + digitVal c) :
    foldDigits acc (c :: rest) = .error .Overflow := by
  have hnone : checkedAdd acc ((c.toNat - 48 : Nat) : Int) = none := by
    rw [checkedAdd, if_neg]
    intro hv
    unfold validI64 digitVal at *
    omega
  simp only [foldDigits, toDigit10_of_digit c hc, hnone]

theorem digit_ne_special (c : Char) (h : isDigitChar c = true) :
    c ≠ '-' ∧ c ≠ '+' ∧ c ≠ '$' ∧ c ≠ '.' := by
  refine ⟨?_, ?_, ?_, ?_⟩ <;> · intro he; subst he; exact absurd h (by decide)

theorem digit_isAscii (c : Char) (h : isDigitChar c = true) :
    isAsciiChar c = true := by
  have h2 := of_decide_eq_true h
  simp [isAsciiChar]
  omega

theorem stripSign_digits (l : List Char) (h : ∀ c ∈ l, isDigitChar c) :
    stripSign l = (1, l) := by
  cases l with
  | nil => rfl
  | cons c rest =>
    have hc := digit_ne_special c (h c (by simp))
    rw [stripSign, if_neg hc.1, if_neg hc.2.1]

theorem stripDollar_digits (l : List Char) (h : ∀ c ∈ l, isDigitChar c) :
    stripDollar l = l := by
  cases l with
  | nil => rfl
  | cons c rest =>
    have hc := digit_ne_special c (h c (by simp))
    rw [stripDollar, if_neg hc.2.2.1]

theorem splitAtDot_no_dot (l : List Char) (h : ∀ c ∈ l, c ≠ '.') :
    splitAtDot l = (l, []) := by
  induction l with
  | nil => rfl
  | cons c rest ih =>
    rw [splitAtDot, if_neg (h c (by simp)), ih (fun x hx => h x (by simp [hx]))]

theorem composeTotal_digits (d : Int) (h0 : 0 ≤ d) (hb : d * 100 ≤ i64Max) :
    composeTotal d 0 1 = .ok ⟨d * 100⟩ := by
  have hmin := i64Min_nonpos
  have h1 : checkedMul d 100 = some (d * 100) := by
    rw [checkedMul, if_pos]
    constructor <;> omega
  have h2 : checkedAdd (d * 100) 0 = some (d * 100) := by
    rw [checkedAdd, if_pos]
    · rw [add_zero]
    · constructor <;> omega
  have h3 : checkedMul (d * 100) 1 = some (d * 100) := by
    rw [checkedMul, if_pos]
    · rw [mul_one]
    · rw [mul_one]; constructor <;> omega
  simp only [composeTotal, h1, h2, h3]
  rfl

/-- C3: dollar digits are folded left-to-right by plain addition: a run of
digit characters parses to 100 times the SUM of its digit values (so
`"12"` parses to 300, not 1200); a non-digit character in the run fails
with `InvalidDigit` carrying that character; an addition overflowing the
`i64` range fails with `Overflow`. -/
theorem c3_digit_fold :
    (∀ ds : List Char, (∀ c ∈ ds, isDigitChar c) → digitSum ds * 100 ≤ i64Max →
        fromChars ds = .ok ⟨digitSum ds * 100⟩) ∧
    (∀ (ds : List Char) (acc : Int) (c : Char) (rest : List Char),
        (∀ x ∈ ds, isDigitChar x) → isDigitChar c = false →
        0 ≤ acc → acc + digitSum ds ≤ i64Max →
        foldDigits acc (ds ++ c :: rest) = .error (.InvalidDigit c)) ∧
    (∀ (acc : Int) (c : Char) (rest : List Char),
        isDigitChar c = true → i64Max < acc + digitVal c →
        foldDigits acc (c :: rest) = .error .Overflow) ∧
    fromChars ['1', '2'] = .ok ⟨300⟩ := by
  refine ⟨?_, foldDigits_invalid, foldDigits_overflow, rfl⟩
  intro ds hd hb
  have hsum : 0 ≤ digitSum ds := digitSum_nonneg ds
  have hall : ds.all isAsciiChar = true := by
    rw [List.all_eq_true]
    exact fun c hc => digit_isAscii c (hd c hc)
  have hfold : foldDigits 0 ds = .ok (digitSum ds) := by
    have := foldDigits_digits ds 0 le_rfl hd (by omega)
    rwa [zero_add] at this
  have hps : parseSigned ds = .ok ⟨digitSum ds * 100⟩ := by
    rw [parseSigned, stripSign_digits ds hd]
    simp only
    rw [stripDollar_digits ds hd,
      splitAtDot_no_dot ds (fun c hc => (digit_ne_special c (hd c hc)).2.2.2)]
    simp only [hfold, parseCents]
    exact composeTotal_digits (digitSum ds) hsum hb
  rw [fromChars, if_pos hall, hps]

/-- C3 witness: the all-digit run `"42"` parses to `(4 + 2) * 100 = 600`;
the run `"1x"` fails with `InvalidDigit('x')`; a fold step from an
accumulator already at `i64::MAX` fails with `Overflow`. -/
theorem c3_digit_fold_witness :
    fromChars ['4', '2'] = .ok ⟨digitSum ['4', '2'] * 100⟩ ∧
    foldDigits 0 (['1'] ++ 'x' :: []) = .error (.InvalidDigit 'x') ∧
    foldDigits i64Max ('9' :: []) = .error .Overflow :=
  ⟨c3_digit_fold.1 ['4', '2'] (by decide) (by decide),
   c3_digit_fold.2.1 ['1'] 0 'x' [] (by decide) (by decide) (by decide) (by decide),
   c3_digit_fold.2.2.1 i64Max '9' [] (by decide) (by decide)⟩

theorem stripSign_append_dot (p r : List Char) :
    stripSign (p ++ '.' :: r) = ((stripSign p).1, (stripSign p).2 ++ '.' :: r) := by
  cases p with
  | nil => simp [stripSign]
  | cons c rest =>
    simp only [List.cons_append, stripSign]
    split_ifs <;> simp

theorem stripDollar_append_dot (p r : List Char) :
    stripDollar (p ++ '.' :: r) = stripDollar p ++ '.' :: r := by
  cases p with
  | nil => simp [stripDollar]
  | cons c rest =>
    simp only [List.cons_append, stripDollar]
    split_ifs <;> simp

theorem stripSign_subset (p : List Char) : ∀ c ∈ (stripSign p).2, c ∈ p := by
  cases p with
  | nil => simp [stripSign]
  | cons d rest =>
    simp only [stripSign]
    split_ifs <;> intro c hc <;> simp_all

theorem stripDollar_subset (p : List Char) : ∀ c ∈ stripDollar p, c ∈ p := by
  cases p with
  | nil => simp [stripDollar]
  | cons d rest =>
    simp only [stripDollar]
    split_ifs <;> intro c hc <;> simp_all

theorem splitAtDot_append_dot (p r : List Char) (hp : '.' ∉ p) :
    splitAtDot (p ++ '.' :: r) = (p, r) := by
  induction p with
  | nil => simp [splitAtDot]
  | cons c rest ih =>
    have hc : c ≠ '.' := fun he => hp (by simp [he])
    rw [List.cons_append, splitAtDot, if_neg hc, ih (fun hm => hp (by simp [hm]))]

theorem parseSigned_dot_ext (p : List Char) (d1 d2 : Char) (t : List Char)
    (hp : '.' ∉ p) :
    parseSigned (p ++ '.' :: d1 :: d2 :: t) = parseSigned (p ++ ['.', d1, d2]) := by
  have hps1 : '.' ∉ (stripSign p).2 := fun hm => hp (stripSign_subset p '.' hm)
  have hps2 : '.' ∉ stripDollar (stripSign p).2 :=
    fun hm => hps1 (stripDollar_subset _ '.' hm)
  rw [parseSigned, parseSigned, stripSign_append_dot, stripSign_append_dot]
  simp only
  rw [stripDollar_append_dot, stripDollar_append_dot,
    splitAtDot_append_dot _ _ hps2, splitAtDot_append_dot _ _ hps2]
  simp only
  have hpc : parseCents (d1 :: d2 :: t) = parseCents [d1, d2] := rfl
  rw [hpc]

/-- C8: trailing characters after the two cents digits are silently
ignored: if a string of the form `p ++ "." ++ d1 ++ d2` (with the `.`
shown being the first one, so `d1` and `d2` are consumed as the two cents
digits) parses successfully to some Money Value, then appending any ASCII
suffix `t` parses successfully to the same Money Value — the parser never
inspects characters past the two-character cents window. -/
theorem c8_trailing_ignored (p : List Char) (d1 d2 : Char) (t : List Char)
    (v : Dollars) (hp : '.' ∉ p) (ht : ∀ c ∈ t, isAsciiChar c)
    (h : fromChars (p ++ ['.', d1, d2]) = .ok v) :
    fromChars (p ++ '.' :: d1 :: d2 :: t) = .ok v := by
  by_cases hA : (p ++ ['.', d1, d2]).all isAsciiChar
  · have hA2 : (p ++ '.' :: d1 :: d2 :: t).all isAsciiChar = true := by
      rw [List.all_eq_true] at hA ⊢
      intro c hc
      simp only [List.mem_append, List.mem_cons] at hc hA
      rcases hc with hc | hc | hc | hc | hc
      · exact hA c (Or.inl hc)
      · exact hA c (Or.inr (by simp [hc]))
      · exact hA c (Or.inr (by simp [hc]))
      · exact hA c (Or.inr (by simp [hc]))
      · exact ht c hc
    rw [fromChars, if_pos hA] at h
    rw [fromChars, if_pos hA2, parseSigned_dot_ext p d1 d2 t hp]
    exact h
  · rw [fromChars, if_neg hA] at h
    exact absurd h (by simp)

/-- C8 witness: `"1.23"` parses to 123 cents, and appending the ASCII
garbage `"xy"` leaves the result unchanged. -/
theorem c8_trailing_ignored_witness :
    fromChars (['1'] ++ '.' :: '2' :: '3' :: ['x', 'y']) = .ok ⟨123⟩ :=
  c8_trailing_ignored ['1'] '2' '3' ['x', 'y'] ⟨123⟩ (by decide) (by decide) (by decide)

/-- C2 counterexample: `Money(1234)` displays as `"$12.34"`, but parsing
that string back yields 334 (the dollar digits are summed), not 1234. -/
theorem c2_counterexample :
    Dollars.from_str (Dollars.display ⟨1234⟩) ≠ .ok ⟨1234⟩ := by decide

set_option maxRecDepth 100000 in
set_option maxHeartbeats 4000000 in
theorem round_trip_below_1000 : ∀ n : Nat, n < 1000 →
    (Dollars.from_str (Dollars.display ⟨(n : Int)⟩) = .ok ⟨(n : Int)⟩ ∧
     Dollars.from_str (Dollars.display ⟨-(n : Int)⟩) = .ok ⟨-(n : Int)⟩) := by
  decide

/-- C2 (amended): for every raw cent total `v` whose whole-dollar
magnitude is a single digit — that is, `-999 ≤ v ≤ 999` — parsing the
exact string produced by displaying `Money(v)` succeeds and reproduces
`v`.  (For larger magnitudes the additive digit accumulation breaks the
round trip, as the counterexample at `v = 1234` shows.) -/
theorem c2_round_trip (v : Int) (h1 : -999 ≤ v) (h2 : v ≤ 999) :
    Dollars.from_str (Dollars.display ⟨v⟩) = .ok ⟨v⟩ := by
  rcases le_or_lt 0 v with hv | hv
  · have hn : v = ((v.toNat : Int)) := (Int.toNat_of_nonneg hv).symm
    rw [hn]
    exact (round_trip_below_1000 v.toNat (by omega)).1
  · have hn : v = -(((-v).toNat : Int)) := by omega
    rw [hn]
    exact (round_trip_below_1000 (-v).toNat (by omega)).2

/-- C2 witness: the round trip at `v = -105`, whose display is
`"-$1.05"`. -/
theorem c2_round_trip_witness :
    Dollars.from_str (Dollars.display ⟨-105⟩) = .ok ⟨-105⟩ :=
  c2_round_trip (-105) (by norm_num) (by norm_num)
